import Mathlib

/-!
# Verification of saebr's content cache and page-chain maintainer

Shallow embedding of the core of the saebr blog server:

* `cache.go`: a bounded, TTL-based content cache (`cache`, `cache.get`,
  `cache.put`, `shouldSkip`, `cacheServer.ServeHTTP`);
* `relink.go`: the page-chain maintainer `server.relink` that rewrites
  `Prev`/`Next` links of published blog pages into `Created`-ascending order;
* the run-once memoized page renderer `sitePage.Render`.

Modelling conventions:

* Go `time.Time`/`time.Duration` values are integers (nanoseconds); the
  comparison `ent.fetched.Add(cacheTTL).After(time.Now())` becomes
  `ent.fetched + cacheTTL > now` over `Int`, which is exact.
* The Go map `map[string]cacheEntry` is an association list with the usual
  map semantics: assignment replaces the binding of the key, lookup returns
  the binding if present.  Go's randomized map iteration order during the
  eviction loop is modelled by iterating the association list front to back
  (the properties proved here do not depend on the victim order, which the
  source itself advertises as random).
* The mutex `mu` and the 10-second fetch timeout context are dropped: the
  embedding is sequential, and a timed-out fetch is just a fetcher outcome.
* `content` (an interface with a `Render` method) is an opaque type
  parameter `C`; rendering a content value is modelled by the constructor
  `Response.rendered`.
* The fetcher `fetcherFunc` returns `(content, error)`; a single invocation's
  outcome is passed to the model as a pair `Option C × Bool` (the content,
  which may be nil, and whether a non-nil error accompanied it).  `ServeHTTP`
  additionally returns how many times it invoked the fetcher.
-/

/-- `const cacheTTL = time.Minute` (saebr.go line 36), in nanoseconds. -/
def cacheTTL : Int := 60000000000

/-- `cacheEntry` (cache.go lines 32-35): fetch time plus the content. -/
structure cacheEntry (C : Type) where
  fetched : Int
  content : C
deriving DecidableEq, Repr

/-- The `cache` struct (cache.go lines 37-42): entry limit, the entry map,
and the not-found sentinel content.  The mutex field is dropped (sequential
embedding). -/
structure cache (C : Type) where
  limit : Int
  entries : List (String × cacheEntry C)
  notFound : C
deriving DecidableEq, Repr

/-- `cache.get` (cache.go lines 44-49): map lookup (the `RLock` is dropped). -/
def cache.get {C : Type} (c : cache C) (page : String) : Option (cacheEntry C) :=
  c.entries.lookup page

/-- The eviction loop inside `cache.put` (cache.go lines 53-58):
`for k := range c.cache { if len(c.cache) < c.limit { break }; delete(c.cache, k) }`.
Iteration order over a Go map is unspecified; the model walks the
association list front to back. -/
def cache.evict {C : Type} : List (String × cacheEntry C) → Int → List (String × cacheEntry C)
  | [], _ => []
  | kv :: rest, limit =>
    if ((kv :: rest).length : Int) < limit then kv :: rest
    else cache.evict rest limit

/-- `cache.put` (cache.go lines 52-62): evict while at or over the limit,
then `c.cache[page] = ent` (map assignment: any existing binding of `page`
is replaced). -/
def cache.put {C : Type} (c : cache C) (page : String) (ent : cacheEntry C) : cache C :=
  { c with entries := (page, ent) :: (cache.evict c.entries c.limit).filter (fun kv => kv.1 != page) }

/-- `skipSuffixes` (cache.go lines 80-84). -/
def skipSuffixes : List String :=
  ["/wp-login.php", "/wlwmanifest.xml", "/xmlrpc.php"]

/-- `shouldSkip` (cache.go lines 86-93): does the path end with one of the
`skipSuffixes`? -/
def shouldSkip (path : String) : Bool :=
  skipSuffixes.any (fun suf => path.endsWith suf)

/-- `cacheServer` (cache.go lines 74-78): the cache plus the fixed cache key
(`""` means "use the request path").  The fetcher is passed to `ServeHTTP`
directly. -/
structure cacheServer (C : Type) where
  cacheRef : cache C
  key : String
deriving DecidableEq, Repr

/-- What `ServeHTTP` writes to the `http.ResponseWriter`: either an
`http.Error` with a message and status code, or `content.Render`. -/
inductive Response (C : Type) where
  | httpError (msg : String) (status : Nat)
  | rendered (content : C)
deriving DecidableEq, Repr

/-- The body of `cacheServer.ServeHTTP` after the `shouldSkip` guard
(cache.go lines 101-131): compute the cache key, serve a fresh cached entry
if present, otherwise invoke the fetcher once (its outcome is the argument
`fres`), substitute the not-found sentinel for nil content, store, render.
A fetch error is only logged (cache.go lines 120-122); it does not change
the control flow.  Returns (response, updated cache, fetcher invocations). -/
def cacheServer.lookupOrFetch {C : Type} (c : cacheServer C) (path : String) (now : Int)
    (fres : Option C × Bool) : Response C × cache C × Nat :=
  let key := if c.key = "" then path else c.key
  let fresh : Option C :=
    match c.cacheRef.get key with
    | some ent => if ent.fetched + cacheTTL > now then some ent.content else none
    | none => none
  match fresh with
  | some cont => (Response.rendered cont, c.cacheRef, 0)
  | none =>
    let cont := fres.1.getD c.cacheRef.notFound
    (Response.rendered cont,
     c.cacheRef.put key { fetched := now, content := cont },
     1)

/-- `cacheServer.ServeHTTP` (cache.go lines 95-131): tarpit paths get
`http.Error(w, "get nicked", http.StatusTeapot)` (418) before anything else;
every other path goes through the lookup-or-fetch body. -/
def cacheServer.ServeHTTP {C : Type} (c : cacheServer C) (path : String) (now : Int)
    (fres : Option C × Bool) : Response C × cache C × Nat :=
  if shouldSkip path then (Response.httpError "get nicked" 418, c.cacheRef, 0)
  else c.lookupOrFetch path now fres

/-! ## Helper lemmas about the cache -/

/-- Looking up the key just put returns the new entry. -/
theorem cache.get_put_self {C : Type} (c : cache C) (page : String) (ent : cacheEntry C) :
    (c.put page ent).get page = some ent := by
  simp [cache.put, cache.get, List.lookup]

/-- `put` does not change the configured limit. -/
theorem cache.put_limit {C : Type} (c : cache C) (page : String) (ent : cacheEntry C) :
    (c.put page ent).limit = c.limit := rfl

/-- `put` does not change the not-found sentinel. -/
theorem cache.put_notFound {C : Type} (c : cache C) (page : String) (ent : cacheEntry C) :
    (c.put page ent).notFound = c.notFound := rfl

/-- After the eviction loop the map is strictly under the limit, provided the
limit is at least 1 (an empty map is always reachable). -/
theorem cache.evict_length_lt {C : Type} (m : List (String × cacheEntry C)) (limit : Int)
    (h : 1 ≤ limit) : ((cache.evict m limit).length : Int) < limit := by
  induction m with
  | nil => simpa [cache.evict] using h
  | cons kv rest ih =>
    rw [cache.evict]
    split
    · assumption
    · exact ih

/-- A single `put` leaves at most `limit` entries when `limit ≥ 1`. -/
theorem cache.put_length_le {C : Type} (c : cache C) (page : String) (ent : cacheEntry C)
    (h : 1 ≤ c.limit) : (((c.put page ent).entries).length : Int) ≤ c.limit := by
  have hev := cache.evict_length_lt c.entries c.limit h
  have hfilter : ((cache.evict c.entries c.limit).filter (fun kv => kv.1 != page)).length
      ≤ (cache.evict c.entries c.limit).length := List.length_filter_le _ _
  have : (((c.put page ent).entries).length : Int)
      = ((cache.evict c.entries c.limit).filter (fun kv => kv.1 != page)).length + 1 := by
    simp [cache.put]
  rw [this]
  have : (((cache.evict c.entries c.limit).filter (fun kv => kv.1 != page)).length : Int)
      ≤ ((cache.evict c.entries c.limit).length : Int) := by exact_mod_cast hfilter
  omega

/-- Fresh-hit form of the body: a cached entry younger than the TTL is served
as-is, with no fetch and no state change. -/
theorem cacheServer.lookupOrFetch_hit {C : Type} (c : cacheServer C) (path : String)
    (now : Int) (fres : Option C × Bool) (ent : cacheEntry C)
    (hget : c.cacheRef.get (if c.key = "" then path else c.key) = some ent)
    (hfresh : now - ent.fetched < cacheTTL) :
    c.lookupOrFetch path now fres = (Response.rendered ent.content, c.cacheRef, 0) := by
  have hlt : ent.fetched + cacheTTL > now := by omega
  simp [cacheServer.lookupOrFetch, hget, hlt]

/-- Miss form of the body: with no entry under the key, or only a stale one,
the fetcher outcome decides the content (sentinel for nil), which is stored
and rendered; the fetcher runs exactly once. -/
theorem cacheServer.lookupOrFetch_miss {C : Type} (c : cacheServer C) (path : String)
    (now : Int) (fres : Option C × Bool)
    (hstale : ∀ ent, c.cacheRef.get (if c.key = "" then path else c.key) = some ent →
      cacheTTL ≤ now - ent.fetched) :
    c.lookupOrFetch path now fres =
      (Response.rendered (fres.1.getD c.cacheRef.notFound),
       c.cacheRef.put (if c.key = "" then path else c.key)
         { fetched := now, content := fres.1.getD c.cacheRef.notFound },
       1) := by
  rw [cacheServer.lookupOrFetch]
  rcases hget : c.cacheRef.get (if c.key = "" then path else c.key) with _ | ent
  · simp [hget]
  · have := hstale ent hget
    have hnot : ¬ (ent.fetched + cacheTTL > now) := by omega
    simp [hget, hnot]

/-- On a non-tarpit path `ServeHTTP` is the lookup-or-fetch body. -/
theorem cacheServer.ServeHTTP_not_skipped {C : Type} (c : cacheServer C) (path : String)
    (now : Int) (fres : Option C × Bool) (h : shouldSkip path = false) :
    c.ServeHTTP path now fres = c.lookupOrFetch path now fres := by
  simp [cacheServer.ServeHTTP, h]

/-! ## Claim theorems about the cache -/

/-- C2: a lookup that finds an entry fetched less than `cacheTTL` ago renders
exactly the stored content object, does not invoke the fetcher (invocation
count 0, and the result does not depend on `fres` at all), and leaves the
cache unchanged. -/
theorem serveHTTP_fresh_hit {C : Type} (c : cacheServer C) (path : String)
    (now : Int) (fres : Option C × Bool) (ent : cacheEntry C)
    (hskip : shouldSkip path = false)
    (hget : c.cacheRef.get (if c.key = "" then path else c.key) = some ent)
    (hfresh : now - ent.fetched < cacheTTL) :
    c.ServeHTTP path now fres = (Response.rendered ent.content, c.cacheRef, 0) := by
  rw [cacheServer.ServeHTTP_not_skipped c path now fres hskip]
  exact cacheServer.lookupOrFetch_hit c path now fres ent hget hfresh

/-- Witness for C2: a concrete fresh hit is served from the cache. -/
theorem serveHTTP_fresh_hit_witness :
    cacheServer.ServeHTTP (C := Nat) ⟨⟨10, [("/a", ⟨5, 42⟩)], 0⟩, ""⟩ "/a" 6 (some 7, false)
      = (Response.rendered 42, ⟨10, [("/a", ⟨5, 42⟩)], 0⟩, 0) :=
  serveHTTP_fresh_hit ⟨⟨10, [("/a", ⟨5, 42⟩)], 0⟩, ""⟩ "/a" 6 (some 7, false) ⟨5, 42⟩
    (by decide) (by decide) (by decide)

/-- C3: when the stored entry under the key (if any) is at least `cacheTTL`
old, the lookup invokes the fetcher exactly once, stores the resulting
content (sentinel for nil) as a new entry under the key with the lookup's
timestamp, and a `get` of that key in the new state returns the new entry. -/
theorem serveHTTP_stale_refetch {C : Type} (c : cacheServer C) (path : String)
    (now : Int) (fres : Option C × Bool)
    (hskip : shouldSkip path = false)
    (hstale : ∀ ent, c.cacheRef.get (if c.key = "" then path else c.key) = some ent →
      cacheTTL ≤ now - ent.fetched) :
    c.ServeHTTP path now fres =
      (Response.rendered (fres.1.getD c.cacheRef.notFound),
       c.cacheRef.put (if c.key = "" then path else c.key)
         { fetched := now, content := fres.1.getD c.cacheRef.notFound },
       1) ∧
    ((c.ServeHTTP path now fres).2.1).get (if c.key = "" then path else c.key) =
      some { fetched := now, content := fres.1.getD c.cacheRef.notFound } := by
  have hbody := cacheServer.lookupOrFetch_miss c path now fres hstale
  have hserve := cacheServer.ServeHTTP_not_skipped c path now fres hskip
  refine ⟨hserve.trans hbody, ?_⟩
  rw [hserve, hbody]
  exact cache.get_put_self _ _ _

/-- Witness for C3: a lookup with an empty cache fetches once and stores. -/
theorem serveHTTP_stale_refetch_witness :
    cacheServer.ServeHTTP (C := Nat) ⟨⟨10, [], 0⟩, ""⟩ "/a" 5 (some 7, false)
      = (Response.rendered 7, cache.put ⟨10, [], 0⟩ "/a" ⟨5, 7⟩, 1) ∧
    ((cacheServer.ServeHTTP (C := Nat) ⟨⟨10, [], 0⟩, ""⟩ "/a" 5 (some 7, false)).2.1).get "/a"
      = some ⟨5, 7⟩ :=
  serveHTTP_stale_refetch ⟨⟨10, [], 0⟩, ""⟩ "/a" 5 (some 7, false)
    (by decide) (fun ent h => Option.noConfusion h)

/-- C10: `shouldSkip` holds exactly for paths ending in one of the three
tarpit suffixes; such requests get HTTP 418 ("get nicked") with the cache
untouched and the fetcher not invoked, and every other path goes through the
normal lookup-or-fetch body. -/
theorem serveHTTP_teapot_on_skip {C : Type} (c : cacheServer C) (path : String)
    (now : Int) (fres : Option C × Bool) :
    (shouldSkip path =
      (path.endsWith "/wp-login.php" || path.endsWith "/wlwmanifest.xml"
        || path.endsWith "/xmlrpc.php")) ∧
    (shouldSkip path = true →
      c.ServeHTTP path now fres = (Response.httpError "get nicked" 418, c.cacheRef, 0)) ∧
    (shouldSkip path = false →
      c.ServeHTTP path now fres = c.lookupOrFetch path now fres) := by
  refine ⟨?_, ?_, ?_⟩
  · simp [shouldSkip, skipSuffixes, List.any, Bool.or_assoc]
  · intro h
    simp [cacheServer.ServeHTTP, h]
  · intro h
    simp [cacheServer.ServeHTTP, h]

/-- C4 counterexample: on a fetcher outcome that pairs a non-nil content
value with an error, the code stores and renders that content, not the
not-found sentinel (`ServeHTTP` tests only `cont == nil`, not `err != nil`).
With sentinel `0` and fetched content `1` carrying an error, the response
and the stored entry hold `1`, not the sentinel. -/
theorem serveHTTP_error_with_content_cex :
    (cacheServer.ServeHTTP (C := Nat) ⟨⟨10, [], 0⟩, ""⟩ "/a" 5 (some 1, true)).1
      = Response.rendered 1 ∧
    Response.rendered 1 ≠ Response.rendered (0 : Nat) ∧
    ((cacheServer.ServeHTTP (C := Nat) ⟨⟨10, [], 0⟩, ""⟩ "/a" 5 (some 1, true)).2.1).get "/a"
      = some ⟨5, 1⟩ ∧
    (⟨5, 1⟩ : cacheEntry Nat) ≠ ⟨5, 0⟩ := by
  refine ⟨?_, by decide, ?_, by decide⟩
  · rfl
  · rfl

/-- C4 (amended): when the fetcher's content result is nil — with or without
an accompanying error — the lookup stores the not-found sentinel under the
key with the lookup's timestamp and renders the sentinel; no error outcome
is ever propagated (the response on a non-skipped path is always a render);
and a subsequent lookup of the same key within the TTL window renders the
sentinel again without invoking the fetcher. -/
theorem serveHTTP_nil_content_sentinel {C : Type} (c : cacheServer C) (path : String)
    (now : Int) (errFlag : Bool)
    (hskip : shouldSkip path = false)
    (hstale : ∀ ent, c.cacheRef.get (if c.key = "" then path else c.key) = some ent →
      cacheTTL ≤ now - ent.fetched) :
    c.ServeHTTP path now (none, errFlag) =
      (Response.rendered c.cacheRef.notFound,
       c.cacheRef.put (if c.key = "" then path else c.key)
         { fetched := now, content := c.cacheRef.notFound },
       1) ∧
    (∀ now2 fres2, now2 - now < cacheTTL →
      cacheServer.ServeHTTP
          ⟨c.cacheRef.put (if c.key = "" then path else c.key)
             { fetched := now, content := c.cacheRef.notFound }, c.key⟩
          path now2 fres2 =
        (Response.rendered c.cacheRef.notFound,
         c.cacheRef.put (if c.key = "" then path else c.key)
           { fetched := now, content := c.cacheRef.notFound },
         0)) := by
  have h1 := cacheServer.ServeHTTP_not_skipped c path now (none, errFlag) hskip
  have h2 := cacheServer.lookupOrFetch_miss c path now (none, errFlag) hstale
  refine ⟨h1.trans h2, ?_⟩
  intro now2 fres2 hfresh
  have hget : (cacheServer.mk
      (c.cacheRef.put (if c.key = "" then path else c.key)
        { fetched := now, content := c.cacheRef.notFound }) c.key).cacheRef.get
      (if (cacheServer.mk
        (c.cacheRef.put (if c.key = "" then path else c.key)
          { fetched := now, content := c.cacheRef.notFound }) c.key).key = ""
       then path
       else (cacheServer.mk
        (c.cacheRef.put (if c.key = "" then path else c.key)
          { fetched := now, content := c.cacheRef.notFound }) c.key).key)
      = some { fetched := now, content := c.cacheRef.notFound } :=
    cache.get_put_self _ _ _
  exact serveHTTP_fresh_hit _ path now2 fres2 _ hskip hget (by simpa using hfresh)

/-- Witness for C4 (amended): a nil fetch result with an error caches and
renders the sentinel `0`, and a fresh re-lookup serves it without fetching. -/
theorem serveHTTP_nil_content_sentinel_witness :
    cacheServer.ServeHTTP (C := Nat) ⟨⟨10, [], 0⟩, ""⟩ "/a" 5 (none, true) =
      (Response.rendered 0, cache.put ⟨10, [], 0⟩ "/a" ⟨5, 0⟩, 1) ∧
    (∀ now2 fres2, now2 - 5 < cacheTTL →
      cacheServer.ServeHTTP (C := Nat) ⟨cache.put ⟨10, [], 0⟩ "/a" ⟨5, 0⟩, ""⟩ "/a" now2 fres2 =
        (Response.rendered 0, cache.put ⟨10, [], 0⟩ "/a" ⟨5, 0⟩, 0)) :=
  serveHTTP_nil_content_sentinel ⟨⟨10, [], 0⟩, ""⟩ "/a" 5 true (by decide)
    (fun ent h => Option.noConfusion h)

/-- C5 counterexample: with a configured capacity of 0 (the option surface
`CacheMaxSize` accepts any int), a single `put` leaves 1 resident entry,
exceeding the configured capacity — the eviction loop can only stop an
insertion from exceeding a positive limit. -/
theorem cache_put_limit_zero_cex :
    ((cache.put (C := Nat) ⟨0, [], 0⟩ "/a" ⟨0, 1⟩).entries.length : Int)
      > (cache.put (C := Nat) ⟨0, [], 0⟩ "/a" ⟨0, 1⟩).limit := by
  decide

/-- The configured limit survives any sequence of `put` operations. -/
theorem cache.foldl_put_limit {C : Type} (ops : List (String × cacheEntry C)) (c : cache C) :
    (ops.foldl (fun acc op => acc.put op.1 op.2) c).limit = c.limit := by
  induction ops generalizing c with
  | nil => rfl
  | cons op rest ih => simpa [List.foldl] using ih (c.put op.1 op.2)

/-- A nonempty sequence of `put` operations leaves at most `limit` entries
when the limit is at least 1. -/
theorem cache.foldl_put_length_le {C : Type} (ops : List (String × cacheEntry C)) (c : cache C)
    (h : 1 ≤ c.limit) (hne : ops ≠ []) :
    (((ops.foldl (fun acc op => acc.put op.1 op.2) c).entries).length : Int) ≤ c.limit := by
  induction ops generalizing c with
  | nil => exact absurd rfl hne
  | cons op rest ih =>
    rcases rest with _ | ⟨op2, rest2⟩
    · simpa using cache.put_length_le c op.1 op.2 h
    · have h' : 1 ≤ (c.put op.1 op.2).limit := h
      simpa [List.foldl] using ih (c.put op.1 op.2) h' (by simp)

/-- C5 (amended): for every configured capacity of at least 1, after any
`put` — and hence after any put of any nonempty sequence of puts — the
number of resident entries never exceeds the capacity. -/
theorem cache_put_bounded {C : Type} (c : cache C) (h : 1 ≤ c.limit) :
    (∀ page ent, (((c.put page ent).entries).length : Int) ≤ c.limit) ∧
    (∀ ops : List (String × cacheEntry C), ops ≠ [] →
      (((ops.foldl (fun acc op => acc.put op.1 op.2) c).entries).length : Int) ≤ c.limit) :=
  ⟨fun page ent => cache.put_length_le c page ent h,
   fun ops hne => cache.foldl_put_length_le ops c h hne⟩

/-- Witness for C5 (amended): a capacity-2 cache stays within 2 entries. -/
theorem cache_put_bounded_witness :
    (∀ page ent, (((cache.put (C := Nat) ⟨2, [], 0⟩ page ent).entries).length : Int) ≤ 2) ∧
    (∀ ops : List (String × cacheEntry Nat), ops ≠ [] →
      (((ops.foldl (fun acc op => acc.put op.1 op.2) (⟨2, [], 0⟩ : cache Nat)).entries).length : Int) ≤ 2) :=
  cache_put_bounded ⟨2, [], 0⟩ (by decide)

/-!
## The page-chain maintainer (`relink.go`)

`Page` (part_001 lines 38-52 of the source) models the datastore entity: a
store key plus the entity fields.  `*datastore.Key` identities are `Nat`; a
nilable key (`Prev`/`Next`) is `Option Nat`; `datastore.Key.Equal` is
equality of options.  The two runtime-only fields (`fullHTML`, `render`,
tagged `datastore:"-"`) live in the renderer model further below, not in the
stored entity.

`server.relink` (relink.go lines 24-75) runs, inside one transaction, the
query `Kind("Page"), Ancestor(site), Published = true, Blog = true, Order
Created` — modelled by `chainQuery` as filter-then-stable-sort — and then
repairs the `Prev`/`Next` links of the resulting slice in place, collecting
the set `upd` of slice indexes whose links changed, and finally calls
`tx.Put` exactly for the pages at those indexes.  `relink` returns the
repaired slice together with `upd`.  The in-place index mutation of the Go
loop (`for i := range pages[:N-1]`) is rendered as a structural recursion
over the slice that carries the current index `i` and the already-repaired
current element: iteration `i` reads and writes only `pages[i]` (its `Next`)
and `pages[i+1]` (its `Prev`), which the recursion passes along.
-/

/-- The stored fields of the `Page` entity (part_001 lines 38-52). -/
structure Page where
  key : Nat
  title : String
  created : Int
  lastModified : Int
  published : Bool
  blog : Bool
  category : String
  tags : List String
  contents : String
  prev : Option Nat
  next : Option Nat
deriving DecidableEq, Repr, Inhabited

/-- The transactional query of `relink` (relink.go lines 26-31): published
blog pages under the site ancestor, ordered by `Created` ascending.  The
store's stable order-by is modelled by a stable insertion sort of the
filtered store. -/
def chainQuery (store : List Page) : List Page :=
  List.insertionSort (fun a b => a.created ≤ b.created)
    (store.filter (fun p => p.published && p.blog))

/-- `if pages[0].Prev != nil { pages[0].Prev = nil; upd[0] = struct{}{} }`
(relink.go lines 46-49). -/
def relinkFixFirst (pages : List Page) : List Page × Finset Nat :=
  match pages with
  | [] => ([], ∅)
  | p :: rest =>
    if p.prev ≠ none then ({ p with prev := none } :: rest, {0}) else (p :: rest, ∅)

/-- `if pages[N-1].Next != nil { pages[N-1].Next = nil; upd[N-1] = struct{}{} }`
(relink.go lines 50-53), reaching `pages[N-1]` by recursion; `i` is the
index of the current head. -/
def relinkFixLast : List Page → Nat → List Page × Finset Nat
  | [], _ => ([], ∅)
  | [p], i => if p.next ≠ none then ([{ p with next := none }], {i}) else ([p], ∅)
  | p :: q :: rest, i =>
    let (t, u) := relinkFixLast (q :: rest) (i + 1)
    (p :: t, u)

/-- The middle loop of `relink` (relink.go lines 55-64): for each `i` in
`0..N-2`, if `pages[i+1].Prev` is not `pages[i].Key` set it and record
`i+1`; then if `pages[i].Next` is not `pages[i+1].Key` (read after the
possible `Prev` update, which leaves `Key` unchanged) set it and record `i`.
`a` is the current `pages[i]`, already updated by earlier iterations. -/
def relinkLoop : Nat → Page → List Page → List Page × Finset Nat
  | _, a, [] => ([a], ∅)
  | i, a, b :: rest =>
    let b1 := if b.prev ≠ some a.key then { b with prev := some a.key } else b
    let u1 : Finset Nat := if b.prev ≠ some a.key then {i + 1} else ∅
    let a1 := if a.next ≠ some b1.key then { a with next := some b1.key } else a
    let u2 : Finset Nat := if a.next ≠ some b1.key then {i} else ∅
    let (t, u3) := relinkLoop (i + 1) b1 rest
    (a1 :: t, u1 ∪ u2 ∪ u3)

/-- `server.relink`'s in-transaction body (relink.go lines 37-72) applied to
the query result: `N == 0` means no writes; otherwise fix the first page's
`Prev`, the last page's `Next`, then run the middle loop.  Returns the
repaired slice and the set of slice indexes written back by `tx.Put`.  (The
inner `match` on the fixed list is only there to name its head; the fixes
preserve the length, so the list is still nonempty.) -/
def relink (pages : List Page) : List Page × Finset Nat :=
  match pages with
  | [] => ([], ∅)
  | _ :: _ =>
    let r1 := relinkFixFirst pages
    let r2 := relinkFixLast r1.1 0
    match r2.1 with
    | [] => ([], r1.2 ∪ r2.2)
    | a :: rest =>
      let r3 := relinkLoop 0 a rest
      (r3.1, r1.2 ∪ r2.2 ∪ r3.2)

/-- The pages handed to `tx.Put` (relink.go lines 66-70): the repaired pages
at the recorded indexes. -/
def relinkWrites (pages : List Page) : List Page :=
  ((relink pages).2.sort (· ≤ ·)).map (fun i => (relink pages).1.getD i default)

/-- Applying a batch of `tx.Put(w.Key, w)` calls to the store: each stored
entity whose key is among the written keys is replaced by the written value. -/
def applyPuts (store : List Page) (writes : List Page) : List Page :=
  store.map (fun p =>
    match writes.find? (fun w => w.key == p.key) with
    | some w => w
    | none => p)

/-- One full `relink` run as seen by the datastore. -/
def relinkStore (store : List Page) : List Page :=
  applyPuts store (relinkWrites (chainQuery store))

/-- Adjacent-pair links of the claim: for every adjacent pair `(a, b)`,
`a.Next` is `b`'s key and `b.Prev` is `a`'s key. -/
def chainLinks : List Page → Bool
  | [] => true
  | [_] => true
  | a :: b :: rest =>
    decide (a.next = some b.key) && decide (b.prev = some a.key) && chainLinks (b :: rest)

/-- A correct chain: first `Prev` nil, last `Next` nil, adjacent pairs
linked (vacuously true of the empty chain). -/
def chainOk : List Page → Bool
  | [] => true
  | p :: rest =>
    decide (p.prev = none) && decide (((p :: rest).getLastD default).next = none)
      && chainLinks (p :: rest)

/-- Fields other than `Prev`/`Next` (the two fields `relink` owns) agree. -/
def eqExceptLinks (p q : Page) : Prop :=
  q.key = p.key ∧ q.title = p.title ∧ q.created = p.created ∧
  q.lastModified = p.lastModified ∧ q.published = p.published ∧ q.blog = p.blog ∧
  q.category = p.category ∧ q.tags = p.tags ∧ q.contents = p.contents

/-! ## Helper lemmas about relink -/

/-- Conditional-update of `prev` always lands on the updated value (when the
field already equals it, updating is the identity). -/
theorem set_prev_if (a b : Page) :
    (if b.prev ≠ some a.key then { b with prev := some a.key } else b)
      = { b with prev := some a.key } := by
  split
  · rfl
  · rename_i h
    rw [not_ne_iff] at h
    rw [← h]

/-- Conditional-update of `next` always lands on the updated value. -/
theorem set_next_if (a : Page) (v : Option Nat) :
    (if a.next ≠ v then { a with next := v } else a) = { a with next := v } := by
  split
  · rfl
  · rename_i h
    rw [not_ne_iff] at h
    rw [← h]

/-- The pure shape of the repaired middle of the chain: the head's `next`
points at its successor and each later page's `prev` points back. -/
def linkedFrom : Page → List Page → List Page
  | a, [] => [a]
  | a, b :: rest => { a with next := some b.key } :: linkedFrom { b with prev := some a.key } rest

/-- The pages component of `relinkLoop` is `linkedFrom`. -/
theorem relinkLoop_fst (i : Nat) (a : Page) (rest : List Page) :
    (relinkLoop i a rest).1 = linkedFrom a rest := by
  induction rest generalizing i a with
  | nil => rfl
  | cons b rest ih =>
    rw [relinkLoop, linkedFrom]
    rcases hr : relinkLoop (i + 1) (if b.prev ≠ some a.key then { b with prev := some a.key } else b) rest with ⟨t, u3⟩
    simp only [set_prev_if] at hr
    have hkey : ({ b with prev := some a.key } : Page).key = b.key := rfl
    simp only [set_prev_if, hkey, set_next_if, hr]
    have := ih (i + 1) ({ b with prev := some a.key })
    rw [hr] at this
    exact congrArg₂ List.cons rfl this.symm ▸ rfl

/-- `linkedFrom` preserves length. -/
theorem linkedFrom_length (a : Page) (rest : List Page) :
    (linkedFrom a rest).length = rest.length + 1 := by
  induction rest generalizing a with
  | nil => rfl
  | cons b rest ih => simpa [linkedFrom] using ih { b with prev := some a.key }

/-- The head of `linkedFrom a rest` keeps `a`'s `prev`. -/
theorem linkedFrom_headD_prev (a : Page) (rest : List Page) (d : Page) :
    ((linkedFrom a rest).headD d).prev = a.prev := by
  cases rest <;> rfl

/-- The head of `linkedFrom a rest` keeps `a`'s `key`. -/
theorem linkedFrom_headD_key (a : Page) (rest : List Page) (d : Page) :
    ((linkedFrom a rest).headD d).key = a.key := by
  cases rest <;> rfl

/-- The last element of `linkedFrom a rest` keeps the input's last `next`. -/
theorem linkedFrom_getLastD_next (a : Page) (rest : List Page) (d : Page) :
    ((linkedFrom a rest).getLastD d).next = ((a :: rest).getLastD d).next := by
  induction rest generalizing a d with
  | nil => rfl
  | cons b rest ih =>
    rw [linkedFrom]
    rcases rest with _ | ⟨c, rest2⟩
    · rfl
    · simpa [linkedFrom, List.getLastD_cons] using
        ih ({ b with prev := some a.key }) ({ a with next := some b.key })

/-- The adjacent links of `linkedFrom` are correct. -/
theorem linkedFrom_chainLinks (a : Page) (rest : List Page) :
    chainLinks (linkedFrom a rest) = true := by
  induction rest generalizing a with
  | nil => rfl
  | cons b rest ih =>
    rcases rest with _ | ⟨c, rest2⟩
    · simp [linkedFrom, chainLinks]
    · have := ih { b with prev := some a.key }
      simp only [linkedFrom] at this ⊢
      simp [chainLinks, this]

/-- The pure shape of the last-page fix: only the final page's `next` is set
to nil. -/
def setLastNextNone : List Page → List Page
  | [] => []
  | [p] => [{ p with next := none }]
  | p :: q :: rest => p :: setLastNextNone (q :: rest)

/-- The pages component of `relinkFixLast` is `setLastNextNone`. -/
theorem relinkFixLast_fst (l : List Page) (i : Nat) :
    (relinkFixLast l i).1 = setLastNextNone l := by
  induction l generalizing i with
  | nil => rfl
  | cons p rest ih =>
    rcases rest with _ | ⟨q, rest2⟩
    · rw [relinkFixLast, setLastNextNone]
      split
      · rfl
      · rename_i h
        rw [not_ne_iff] at h
        rw [← h]
    · rw [relinkFixLast, setLastNextNone]
      rcases hr : relinkFixLast (q :: rest2) (i + 1) with ⟨t, u⟩
      have := ih (i + 1)
      rw [hr] at this
      simpa using this

/-- The pages component of `relinkFixFirst` on a nonempty list. -/
theorem relinkFixFirst_fst (p : Page) (rest : List Page) :
    (relinkFixFirst (p :: rest)).1 = { p with prev := none } :: rest := by
  rw [relinkFixFirst]
  split
  · rfl
  · rename_i h
    rw [not_ne_iff] at h
    rw [← h]

/-- `setLastNextNone` preserves length. -/
theorem setLastNextNone_length (l : List Page) :
    (setLastNextNone l).length = l.length := by
  induction l with
  | nil => rfl
  | cons p rest ih =>
    rcases rest with _ | ⟨q, rest2⟩
    · rfl
    · simpa [setLastNextNone] using ih

/-- `setLastNextNone` preserves every `prev` field positionally. -/
theorem setLastNextNone_getD_prev (l : List Page) (j : Nat) (d : Page) :
    ((setLastNextNone l).getD j d).prev = (l.getD j d).prev := by
  induction l generalizing j with
  | nil => rfl
  | cons p rest ih =>
    rcases rest with _ | ⟨q, rest2⟩
    · rcases j with _ | j <;> rfl
    · rcases j with _ | j
      · rfl
      · simpa [setLastNextNone] using ih j

/-- `setLastNextNone` preserves `next` at every index below the last. -/
theorem setLastNextNone_getD_next (l : List Page) (j : Nat) (d : Page)
    (h : j + 1 < l.length) :
    ((setLastNextNone l).getD j d).next = (l.getD j d).next := by
  induction l generalizing j with
  | nil => rfl
  | cons p rest ih =>
    rcases rest with _ | ⟨q, rest2⟩
    · simp at h
    · rcases j with _ | j
      · rfl
      · have : j + 1 < (q :: rest2).length := by simpa using h
        simpa [setLastNextNone] using ih j this

/-- `setLastNextNone` makes the final page's `next` nil. -/
theorem setLastNextNone_getLastD_next (l : List Page) (d : Page) (h : l ≠ []) :
    ((setLastNextNone l).getLastD d).next = none := by
  induction l generalizing d with
  | nil => exact absurd rfl h
  | cons p rest ih =>
    rcases rest with _ | ⟨q, rest2⟩
    · rfl
    · rw [setLastNextNone, List.getLastD_cons]
      exact ih p (by simp)

/-- The pure shape of a full repair: nil out the first `prev` and the last
`next`, then link every adjacent pair. -/
def repairedPages (pages : List Page) : List Page :=
  match pages with
  | [] => []
  | p :: rest =>
    match setLastNextNone ({ p with prev := none } :: rest) with
    | [] => []
    | a :: r => linkedFrom a r

/-- The pages component of `relink` is `repairedPages`. -/
theorem relink_fst (pages : List Page) : (relink pages).1 = repairedPages pages := by
  rcases pages with _ | ⟨p, rest⟩
  · rfl
  · rw [relink, repairedPages]
    simp only [relinkFixFirst_fst, relinkFixLast_fst]
    rcases hps2 : setLastNextNone ({ p with prev := none } :: rest) with _ | ⟨a, r⟩
    · rfl
    · simp only [relinkLoop_fst]

/-- Repair preserves length. -/
theorem repairedPages_length (pages : List Page) :
    (repairedPages pages).length = pages.length := by
  rcases pages with _ | ⟨p, rest⟩
  · rfl
  · rw [repairedPages]
    rcases hps2 : setLastNextNone ({ p with prev := none } :: rest) with _ | ⟨a, r⟩
    · have := setLastNextNone_length ({ p with prev := none } :: rest)
      rw [hps2] at this
      simp at this
    · have := setLastNextNone_length ({ p with prev := none } :: rest)
      rw [hps2] at this
      simpa [linkedFrom_length] using this

/-- After repair the first page's `prev` is nil. -/
theorem repairedPages_headD_prev (pages : List Page) (h : pages ≠ []) (d : Page) :
    ((repairedPages pages).headD d).prev = none := by
  rcases pages with _ | ⟨p, rest⟩
  · exact absurd rfl h
  · rw [repairedPages]
    rcases hps2 : setLastNextNone ({ p with prev := none } :: rest) with _ | ⟨a, r⟩
    · have := setLastNextNone_length ({ p with prev := none } :: rest)
      rw [hps2] at this
      simp at this
    · have hprev := setLastNextNone_getD_prev ({ p with prev := none } :: rest) 0 d
      rw [hps2] at hprev
      rw [linkedFrom_headD_prev]
      simpa using hprev

/-- After repair the last page's `next` is nil. -/
theorem repairedPages_getLastD_next (pages : List Page) (h : pages ≠ []) (d : Page) :
    ((repairedPages pages).getLastD d).next = none := by
  rcases pages with _ | ⟨p, rest⟩
  · exact absurd rfl h
  · rw [repairedPages]
    rcases hps2 : setLastNextNone ({ p with prev := none } :: rest) with _ | ⟨a, r⟩
    · have := setLastNextNone_length ({ p with prev := none } :: rest)
      rw [hps2] at this
      simp at this
    · have hlast := setLastNextNone_getLastD_next ({ p with prev := none } :: rest) d (by simp)
      rw [hps2] at hlast
      rw [linkedFrom_getLastD_next]
      exact hlast

/-- After repair the adjacent links are correct. -/
theorem repairedPages_chainLinks (pages : List Page) :
    chainLinks (repairedPages pages) = true := by
  rcases pages with _ | ⟨p, rest⟩
  · rfl
  · rw [repairedPages]
    rcases hps2 : setLastNextNone ({ p with prev := none } :: rest) with _ | ⟨a, r⟩
    · rfl
    · exact linkedFrom_chainLinks a r

/-- `chainOk` from its three components. -/
theorem chainOk_intro (l : List Page) (h : l ≠ [])
    (h1 : (l.headD default).prev = none) (h2 : (l.getLastD default).next = none)
    (h3 : chainLinks l = true) : chainOk l = true := by
  rcases l with _ | ⟨p, rest⟩
  · rfl
  · simp only [List.headD] at h1
    rw [List.getLastD_eq_getLast?] at h2
    simp [chainOk, h1, h2, h3, List.getLastD_eq_getLast?]

/-- The output of `relink` is a correct chain (also for no pages). -/
theorem relink_chainOk (pages : List Page) : chainOk ((relink pages).1) = true := by
  rcases hp : pages with _ | ⟨p, rest⟩
  · rfl
  · rw [relink_fst]
    have hne : repairedPages (p :: rest) ≠ [] := by
      have := repairedPages_length (p :: rest)
      intro hcon
      rw [hcon] at this
      simp at this
    exact chainOk_intro _ hne (repairedPages_headD_prev _ (by simp) _)
      (repairedPages_getLastD_next _ (by simp) _) (repairedPages_chainLinks _)

/-- C1: after a successful `relink` run over the `N ≥ 1` published
chain-member pages ordered by `Created` ascending (the transactional query),
the first page's `Prev` is nil, the last page's `Next` is nil, every
adjacent pair is linked `Next`-forward and `Prev`-backward, and the run
keeps all `N` pages. -/
theorem relink_chain_correct (store : List Page) (h : 1 ≤ (chainQuery store).length) :
    (((relink (chainQuery store)).1.headD default).prev = none) ∧
    (((relink (chainQuery store)).1.getLastD default).next = none) ∧
    chainLinks ((relink (chainQuery store)).1) = true ∧
    (relink (chainQuery store)).1.length = (chainQuery store).length := by
  have hne : chainQuery store ≠ [] := by
    intro hcon
    rw [hcon] at h
    simp at h
  refine ⟨?_, ?_, ?_, ?_⟩
  · rw [relink_fst]
    exact repairedPages_headD_prev _ hne _
  · rw [relink_fst]
    exact repairedPages_getLastD_next _ hne _
  · rw [relink_fst]
    exact repairedPages_chainLinks _
  · rw [relink_fst]
    exact repairedPages_length _

/-- Witness for C1: a store holding blog pages `A(created=1)`, `B(created=2)`,
`C(created=3)` with scrambled links plus one unpublished page; after repair
the query result is the correct `A-B-C` chain. -/
theorem relink_chain_correct_witness :
    (((relink (chainQuery [⟨3, "C", 3, 0, true, true, "", [], "", some 1, some 9⟩,
      ⟨1, "A", 1, 0, true, true, "", [], "", some 9, none⟩,
      ⟨7, "draft", 0, 0, false, true, "", [], "", none, none⟩,
      ⟨2, "B", 2, 0, true, true, "", [], "", none, none⟩])).1.headD default).prev = none) ∧
    (((relink (chainQuery [⟨3, "C", 3, 0, true, true, "", [], "", some 1, some 9⟩,
      ⟨1, "A", 1, 0, true, true, "", [], "", some 9, none⟩,
      ⟨7, "draft", 0, 0, false, true, "", [], "", none, none⟩,
      ⟨2, "B", 2, 0, true, true, "", [], "", none, none⟩])).1.getLastD default).next = none) ∧
    chainLinks ((relink (chainQuery [⟨3, "C", 3, 0, true, true, "", [], "", some 1, some 9⟩,
      ⟨1, "A", 1, 0, true, true, "", [], "", some 9, none⟩,
      ⟨7, "draft", 0, 0, false, true, "", [], "", none, none⟩,
      ⟨2, "B", 2, 0, true, true, "", [], "", none, none⟩])).1) = true ∧
    (relink (chainQuery [⟨3, "C", 3, 0, true, true, "", [], "", some 1, some 9⟩,
      ⟨1, "A", 1, 0, true, true, "", [], "", some 9, none⟩,
      ⟨7, "draft", 0, 0, false, true, "", [], "", none, none⟩,
      ⟨2, "B", 2, 0, true, true, "", [], "", none, none⟩])).1.length
      = (chainQuery [⟨3, "C", 3, 0, true, true, "", [], "", some 1, some 9⟩,
      ⟨1, "A", 1, 0, true, true, "", [], "", some 9, none⟩,
      ⟨7, "draft", 0, 0, false, true, "", [], "", none, none⟩,
      ⟨2, "B", 2, 0, true, true, "", [], "", none, none⟩]).length :=
  relink_chain_correct [⟨3, "C", 3, 0, true, true, "", [], "", some 1, some 9⟩,
      ⟨1, "A", 1, 0, true, true, "", [], "", some 9, none⟩,
      ⟨7, "draft", 0, 0, false, true, "", [], "", none, none⟩,
      ⟨2, "B", 2, 0, true, true, "", [], "", none, none⟩] (by decide)

/-- `getLastD` of a nonempty list ignores the default. -/
theorem getLastD_congr (l : List Page) (h : l ≠ []) (d d' : Page) :
    l.getLastD d = l.getLastD d' := by
  rcases l with _ | ⟨x, xs⟩
  · exact absurd rfl h
  · rw [List.getLastD_cons, List.getLastD_cons]

/-- A first page whose `prev` is already nil is not touched or recorded. -/
theorem relinkFixFirst_nop (p : Page) (rest : List Page) (h : p.prev = none) :
    relinkFixFirst (p :: rest) = (p :: rest, ∅) := by
  simp [relinkFixFirst, h]

/-- A last page whose `next` is already nil is not touched or recorded. -/
theorem relinkFixLast_nop (l : List Page) (i : Nat)
    (h : (l.getLastD default).next = none) :
    relinkFixLast l i = (l, ∅) := by
  induction l generalizing i with
  | nil => rfl
  | cons p rest ih =>
    rcases rest with _ | ⟨q, rest2⟩
    · have hp : p.next = none := by simpa [List.getLastD_cons] using h
      simp [relinkFixLast, hp]
    · rw [List.getLastD_cons, getLastD_congr (q :: rest2) (by simp) p default] at h
      rw [relinkFixLast]
      rw [ih (i + 1) h]

/-- A middle whose adjacent links are already correct is not touched and
records nothing. -/
theorem relinkLoop_nop (i : Nat) (a : Page) (rest : List Page)
    (h : chainLinks (a :: rest) = true) :
    relinkLoop i a rest = (a :: rest, ∅) := by
  induction rest generalizing i a with
  | nil => rfl
  | cons b rest ih =>
    rw [chainLinks, Bool.and_eq_true, Bool.and_eq_true] at h
    obtain ⟨⟨h1, h2⟩, h3⟩ := h
    rw [decide_eq_true_eq] at h1 h2
    rw [relinkLoop]
    simp only [h2, ne_eq, not_true_eq_false, if_false, ite_false, not_false_eq_true]
    have hb : ¬ b.prev ≠ some a.key := by simp [h2]
    have ha : ¬ a.next ≠ some b.key := by simp [h1]
    simp only [if_neg hb, if_neg ha, ih (i + 1) b h3]
    simp

/-- An already-correct chain is returned unchanged with no recorded writes. -/
theorem relink_noop_of_chainOk (pages : List Page) (h : chainOk pages = true) :
    relink pages = (pages, ∅) := by
  rcases pages with _ | ⟨p, rest⟩
  · rfl
  · rw [chainOk, Bool.and_eq_true, Bool.and_eq_true] at h
    obtain ⟨⟨h1, h2⟩, h3⟩ := h
    rw [decide_eq_true_eq] at h1 h2
    rw [relink]
    simp only [relinkFixFirst_nop p rest h1, relinkFixLast_nop (p :: rest) 0 h2,
      relinkLoop_nop 0 p rest h3]
    simp

/-- Unfolding of one loop iteration with the conditional updates resolved
(`Key` is untouched by the `Prev` update, so both reads agree). -/
theorem relinkLoop_cons (i : Nat) (a b : Page) (rest : List Page) :
    relinkLoop i a (b :: rest) =
      ((if a.next ≠ some b.key then { a with next := some b.key } else a)
          :: (relinkLoop (i + 1) { b with prev := some a.key } rest).1,
        (if b.prev ≠ some a.key then {i + 1} else ∅)
          ∪ (if a.next ≠ some b.key then {i} else ∅)
          ∪ (relinkLoop (i + 1) { b with prev := some a.key } rest).2) := by
  rw [relinkLoop]
  simp only [set_prev_if]

/-- An in-range `getD` ignores the default. -/
theorem getD_default_irrel (l : List Page) (n : Nat) (h : n < l.length) (d d' : Page) :
    l.getD n d = l.getD n d' := by
  rw [List.getD_eq_getElem l d h, List.getD_eq_getElem l d' h]

/-- `getD` at the last index is `getLastD`. -/
theorem getD_length_sub_one (l : List Page) (d : Page) (h : l ≠ []) :
    l.getD (l.length - 1) d = l.getLastD d := by
  induction l generalizing d with
  | nil => exact absurd rfl h
  | cons x xs ih =>
    rcases xs with _ | ⟨y, ys⟩
    · rfl
    · rw [List.getLastD_cons]
      have hlen : (x :: y :: ys).length - 1 = (y :: ys).length - 1 + 1 := by
        simp
      rw [hlen, List.getD_cons_succ]
      have hlt : (y :: ys).length - 1 < (y :: ys).length := by
        have : 0 < (y :: ys).length := by simp
        omega
      rw [getD_default_irrel (y :: ys) ((y :: ys).length - 1) hlt d x]
      exact ih x (by simp)

/-- The head of `linkedFrom` keeps `a`'s `prev` (getD form). -/
theorem linkedFrom_getD_zero_prev (a : Page) (rest : List Page) (d : Page) :
    ((linkedFrom a rest).getD 0 d).prev = a.prev := by
  cases rest <;> rfl

/-- The first-page fix records index 0, and only on an actual change. -/
theorem relinkFixFirst_snd (p : Page) (rest : List Page) :
    ∀ j ∈ (relinkFixFirst (p :: rest)).2, j = 0 ∧ p.prev ≠ none := by
  intro j hj
  rw [relinkFixFirst] at hj
  split at hj
  · rename_i h
    simp only [Finset.mem_singleton] at hj
    exact ⟨hj, h⟩
  · simp at hj

/-- The last-page fix records the last index, and only on an actual change. -/
theorem relinkFixLast_snd (l : List Page) (i : Nat) :
    ∀ j ∈ (relinkFixLast l i).2, j = i + (l.length - 1) ∧
      (l.getLastD default).next ≠ none := by
  induction l generalizing i with
  | nil => intro j hj; simp [relinkFixLast] at hj
  | cons p rest ih =>
    intro j hj
    rcases rest with _ | ⟨q, rest2⟩
    · rw [relinkFixLast] at hj
      split at hj
      · rename_i h
        simp only [Finset.mem_singleton] at hj
        refine ⟨by simpa using hj, by simpa [List.getLastD_cons] using h⟩
      · simp at hj
    · rw [relinkFixLast] at hj
      rcases hr : relinkFixLast (q :: rest2) (i + 1) with ⟨t, u⟩
      rw [hr] at hj
      simp only at hj
      obtain ⟨h1, h2⟩ := ih (i + 1) j (by rw [hr]; exact hj)
      constructor
      · simp only [List.length_cons] at h1 ⊢
        omega
      · rw [List.getLastD_cons, getLastD_congr (q :: rest2) (by simp) p default]
        exact h2

/-- The `next` fields of `{b with prev := ...} :: rest` agree positionally
with those of `b :: rest`. -/
theorem getD_next_set_prev (b : Page) (v : Option Nat) (rest : List Page) (m : Nat) (d : Page) :
    ((({ b with prev := v } : Page) :: rest).getD m d).next = ((b :: rest).getD m d).next := by
  cases m <;> rfl

/-- Every index the middle loop records is an index where the repaired
`prev` (for indexes past the head) or the repaired `next` (for indexes
before the last) differs from the input. -/
theorem relinkLoop_snd_spec (i : Nat) (a : Page) (rest : List Page) :
    ∀ j ∈ (relinkLoop i a rest).2, ∃ m, j = i + m ∧ m ≤ rest.length ∧
      ((1 ≤ m ∧
          ((linkedFrom a rest).getD m default).prev ≠ ((a :: rest).getD m default).prev)
        ∨ (m < rest.length ∧
          ((linkedFrom a rest).getD m default).next ≠ ((a :: rest).getD m default).next)) := by
  induction rest generalizing i a with
  | nil => intro j hj; simp [relinkLoop] at hj
  | cons b rest ih =>
    intro j hj
    rw [relinkLoop_cons] at hj
    simp only [Finset.mem_union] at hj
    rcases hj with (hj | hj) | hj
    · by_cases hb : b.prev ≠ some a.key
      · rw [if_pos hb, Finset.mem_singleton] at hj
        refine ⟨1, by omega, by simp, Or.inl ⟨le_refl 1, ?_⟩⟩
        rw [linkedFrom]
        rw [List.getD_cons_succ, List.getD_cons_succ, List.getD_cons_zero]
        rw [linkedFrom_getD_zero_prev]
        simpa using Ne.symm hb
      · rw [if_neg hb] at hj
        simp at hj
    · by_cases ha : a.next ≠ some b.key
      · rw [if_pos ha, Finset.mem_singleton] at hj
        refine ⟨0, by omega, by simp, Or.inr ⟨by simp, ?_⟩⟩
        rw [linkedFrom]
        rw [List.getD_cons_zero, List.getD_cons_zero]
        simpa using Ne.symm ha
      · rw [if_neg ha] at hj
        simp at hj
    · obtain ⟨m, hm, hmle, hd⟩ := ih (i + 1) { b with prev := some a.key } j hj
      refine ⟨m + 1, by omega, by simpa using Nat.succ_le_succ hmle, ?_⟩
      rw [linkedFrom]
      rcases hd with ⟨hm1, hne⟩ | ⟨hmlt, hne⟩
      · refine Or.inl ⟨by omega, ?_⟩
        rw [List.getD_cons_succ, List.getD_cons_succ]
        rcases m with _ | m
        · omega
        · rw [List.getD_cons_succ] at hne
          rw [List.getD_cons_succ]
          exact hne
      · refine Or.inr ⟨by simpa using Nat.succ_lt_succ hmlt, ?_⟩
        rw [List.getD_cons_succ, List.getD_cons_succ]
        rw [getD_next_set_prev b (some a.key) rest m default] at hne
        exact hne

/-- Full unfolding of `relink` on a nonempty list, naming the head and tail
of the last-fixed list. -/
theorem relink_cons_eq (p : Page) (rest : List Page) :
    ∃ a r, setLastNextNone ({ p with prev := none } :: rest) = a :: r ∧
      relink (p :: rest) =
        (linkedFrom a r,
          (relinkFixFirst (p :: rest)).2
            ∪ (relinkFixLast ({ p with prev := none } :: rest) 0).2
            ∪ (relinkLoop 0 a r).2) := by
  rcases hs : setLastNextNone ({ p with prev := none } :: rest) with _ | ⟨a, r⟩
  · have := setLastNextNone_length ({ p with prev := none } :: rest)
    rw [hs] at this
    simp at this
  · refine ⟨a, r, rfl, ?_⟩
    rw [relink]
    simp only [relinkFixFirst_fst, relinkFixLast_fst, hs, relinkLoop_fst]

/-- The `next` fields of `{p with prev := none} :: rest` agree positionally
with those of `p :: rest`. -/
theorem getD_next_fixFirst (p : Page) (rest : List Page) (m : Nat) (d : Page) :
    ((({ p with prev := none } : Page) :: rest).getD m d).next = ((p :: rest).getD m d).next := by
  cases m <;> rfl

/-- The `prev` fields of `{p with prev := none} :: rest` agree positionally
with those of `p :: rest` above index 0. -/
theorem getD_prev_fixFirst (p : Page) (rest : List Page) (m : Nat) (d : Page) :
    ((({ p with prev := none } : Page) :: rest).getD (m + 1) d).prev
      = ((p :: rest).getD (m + 1) d).prev := by
  rfl

/-- Every index `relink` records for write-back is in range and holds a page
whose repaired value differs from the queried value: only changed pages are
written. -/
theorem relink_snd_spec (pages : List Page) :
    ∀ j ∈ (relink pages).2, j < pages.length ∧
      (relink pages).1.getD j default ≠ pages.getD j default := by
  rcases pages with _ | ⟨p, rest⟩
  · intro j hj; simp [relink] at hj
  · obtain ⟨a, r, hs, heq⟩ := relink_cons_eq p rest
    have hlen : r.length = rest.length := by
      have := setLastNextNone_length ({ p with prev := none } :: rest)
      rw [hs] at this
      simpa using this
    intro j hj
    rw [heq] at hj
    simp only [Finset.mem_union] at hj
    rw [heq]
    simp only
    rcases hj with (hj | hj) | hj
    · -- first-page fix: index 0, prev was not nil, repaired prev is nil
      obtain ⟨hj0, hne⟩ := relinkFixFirst_snd p rest j hj
      subst hj0
      refine ⟨by simp, ?_⟩
      intro hcon
      apply hne
      have hprev : ((linkedFrom a r).getD 0 default).prev = none := by
        rw [linkedFrom_getD_zero_prev]
        have := setLastNextNone_getD_prev ({ p with prev := none } :: rest) 0 default
        rw [hs] at this
        simpa using this
      rw [hcon] at hprev
      simpa using hprev
    · -- last-page fix: index N-1, next was not nil, repaired next is nil
      obtain ⟨hjl, hne⟩ := relinkFixLast_snd ({ p with prev := none } :: rest) 0 j hj
      have hnel : ((p :: rest).getLastD default).next ≠ none := by
        rcases rest with _ | ⟨q, rest2⟩
        · simpa [List.getLastD_cons] using hne
        · rw [List.getLastD_cons] at hne ⊢
          exact hne
      have hj' : j = (p :: rest).length - 1 := by simpa using hjl
      subst hj'
      refine ⟨by simp, ?_⟩
      intro hcon
      apply hnel
      have hout : ((linkedFrom a r).getD ((p :: rest).length - 1) default).next = none := by
        have hlf : (linkedFrom a r).length = (p :: rest).length := by
          rw [linkedFrom_length]
          simp [hlen]
        rw [← hlf, getD_length_sub_one _ _ (by cases r <;> simp [linkedFrom])]
        rw [linkedFrom_getLastD_next, ← hs]
        exact setLastNextNone_getLastD_next _ _ (by simp)
      rw [hcon] at hout
      rw [← getD_length_sub_one (p :: rest) default (by simp)]
      exact hout
    · -- middle loop: the recorded index differs in prev or next
      obtain ⟨m, hm, hmle, hd⟩ := relinkLoop_snd_spec 0 a r j hj
      have hj' : j = m := by omega
      subst hj'
      have hrange : j ≤ rest.length := by omega
      refine ⟨by simp; omega, ?_⟩
      rcases hd with ⟨hm1, hne⟩ | ⟨hmlt, hne⟩
      · -- differs in prev; prev of the input at index ≥ 1 is the store's
        intro hcon
        apply hne
        rw [hcon]
        have hp2 := setLastNextNone_getD_prev ({ p with prev := none } :: rest) j default
        rw [hs] at hp2
        rw [hp2]
        rcases Nat.exists_eq_add_of_le hm1 with ⟨m2, hm2⟩
        subst hm2
        rw [Nat.add_comm 1 m2]
        exact (getD_prev_fixFirst p rest m2 default).symm
      · -- differs in next; next of the input below the last is the store's
        intro hcon
        apply hne
        rw [hcon]
        have hp2 := setLastNextNone_getD_next ({ p with prev := none } :: rest) j default
          (by simp; omega)
        rw [hs] at hp2
        rw [hp2]
        rw [getD_next_fixFirst p rest j default]

/-- C6: chain repair is idempotent and write-minimal: with zero queried
pages it performs no writes; on an already-correct chain it returns the
pages unchanged and records no writes; every recorded write-back index holds
a page whose repaired value differs from the stored value; and re-running
`relink` on its own output records no writes. -/
theorem relink_idempotent (pages : List Page) :
    relink ([] : List Page) = ([], ∅) ∧
    (chainOk pages = true → relink pages = (pages, ∅)) ∧
    (∀ j ∈ (relink pages).2, (relink pages).1.getD j default ≠ pages.getD j default) ∧
    relink ((relink pages).1) = ((relink pages).1, ∅) := by
  refine ⟨rfl, relink_noop_of_chainOk pages, fun j hj => (relink_snd_spec pages j hj).2, ?_⟩
  exact relink_noop_of_chainOk _ (relink_chainOk pages)

/-- A page with its two maintainer-owned link fields blanked. -/
def stripLinks (p : Page) : Page :=
  { p with prev := none, next := none }

/-- `eqExceptLinks` from equality of the stripped pages. -/
theorem eqExceptLinks_of_strip (p q : Page) (h : stripLinks p = stripLinks q) :
    eqExceptLinks p q := by
  cases p
  cases q
  simp only [stripLinks, Page.mk.injEq] at h
  obtain ⟨h1, h2, h3, h4, h5, h6, h7, h8, h9, _, _⟩ := h
  exact ⟨h1.symm, h2.symm, h3.symm, h4.symm, h5.symm, h6.symm, h7.symm, h8.symm, h9.symm⟩

/-- The middle-loop repair only changes link fields. -/
theorem linkedFrom_map_strip (a : Page) (rest : List Page) :
    (linkedFrom a rest).map stripLinks = (a :: rest).map stripLinks := by
  induction rest generalizing a with
  | nil => rfl
  | cons b rest ih =>
    rw [linkedFrom]
    rw [List.map_cons]
    rw [ih { b with prev := some a.key }]
    rfl

/-- The last-page fix only changes a link field. -/
theorem setLastNextNone_map_strip (l : List Page) :
    (setLastNextNone l).map stripLinks = l.map stripLinks := by
  induction l with
  | nil => rfl
  | cons p rest ih =>
    rcases rest with _ | ⟨q, rest2⟩
    · rfl
    · rw [setLastNextNone, List.map_cons, List.map_cons, ih]

/-- `relink` only changes link fields, positionally. -/
theorem relink_map_strip (pages : List Page) :
    ((relink pages).1).map stripLinks = pages.map stripLinks := by
  rcases pages with _ | ⟨p, rest⟩
  · rfl
  · obtain ⟨a, r, hs, heq⟩ := relink_cons_eq p rest
    rw [heq]
    simp only
    have : ((a :: r).map stripLinks) = ({ p with prev := none } :: rest).map stripLinks := by
      rw [← hs, setLastNextNone_map_strip]
    rw [linkedFrom_map_strip, this]
    rfl

/-- `getD` commutes with mapping `stripLinks`. -/
theorem map_strip_getD (l : List Page) (j : Nat) (d : Page) :
    (l.map stripLinks).getD j (stripLinks d) = stripLinks (l.getD j d) := by
  induction l generalizing j with
  | nil => rfl
  | cons x xs ih =>
    rcases j with _ | j
    · rfl
    · rw [List.map_cons, List.getD_cons_succ, List.getD_cons_succ]
      exact ih j

/-- Positionally, `relink` preserves every field but `prev`/`next`. -/
theorem relink_getD_eqExcept (pages : List Page) (j : Nat) (d : Page) :
    eqExceptLinks (pages.getD j d) ((relink pages).1.getD j d) := by
  apply eqExceptLinks_of_strip
  rw [← map_strip_getD, ← map_strip_getD, relink_map_strip]

/-- Membership in the query result is membership in the filtered store. -/
theorem chainQuery_mem (store : List Page) (q : Page) :
    q ∈ chainQuery store ↔ q ∈ store ∧ q.published = true ∧ q.blog = true := by
  rw [chainQuery]
  rw [(List.perm_insertionSort _ _).mem_iff, List.mem_filter]
  simp [Bool.and_eq_true]

/-- Every written-back page is a repaired page at a recorded index. -/
theorem relinkWrites_mem (pages : List Page) :
    ∀ w ∈ relinkWrites pages, ∃ j ∈ (relink pages).2,
      w = (relink pages).1.getD j default := by
  intro w hw
  rw [relinkWrites] at hw
  simp only [List.mem_map] at hw
  obtain ⟨j, hj, hwj⟩ := hw
  exact ⟨j, (Finset.mem_sort _).mp hj, hwj.symm⟩

/-- Every page handed to `tx.Put` corresponds to a queried page: same key,
all non-link fields unchanged, and the queried page was published and a blog
member. -/
theorem relinkWrites_spec (store : List Page) :
    ∀ w ∈ relinkWrites (chainQuery store), ∃ q ∈ chainQuery store,
      q.key = w.key ∧ eqExceptLinks q w ∧ q.published = true ∧ q.blog = true := by
  intro w hw
  obtain ⟨j, hj, hwj⟩ := relinkWrites_mem (chainQuery store) w hw
  have hjlt : j < (chainQuery store).length := (relink_snd_spec (chainQuery store) j hj).1
  refine ⟨(chainQuery store).getD j default, ?_, ?_, ?_, ?_, ?_⟩
  · rw [List.getD_eq_getElem _ _ hjlt]
    exact List.getElem_mem hjlt
  · have hx := relink_getD_eqExcept (chainQuery store) j default
    rw [← hwj] at hx
    exact hx.1.symm
  · rw [hwj]
    exact relink_getD_eqExcept (chainQuery store) j default
  · have hq : (chainQuery store).getD j default ∈ chainQuery store := by
      rw [List.getD_eq_getElem _ _ hjlt]
      exact List.getElem_mem hjlt
    exact ((chainQuery_mem store _).mp hq).2.1
  · have hq : (chainQuery store).getD j default ∈ chainQuery store := by
      rw [List.getD_eq_getElem _ _ hjlt]
      exact List.getElem_mem hjlt
    exact ((chainQuery_mem store _).mp hq).2.2

/-- `getD` commutes with `map` at an in-range index. -/
theorem getD_map_general (f : Page → Page) (l : List Page) (i : Nat) (h : i < l.length)
    (d : Page) : (l.map f).getD i d = f (l.getD i d) := by
  have h2 : i < (l.map f).length := by simpa using h
  rw [List.getD_eq_getElem _ _ h2, List.getElem_map, ← List.getD_eq_getElem l d h]

/-- C7: a full `relink` run writes back only pages returned by the
published-blog-members query, changing only their `Prev`/`Next` fields; in a
store with distinct keys, every stored document is either untouched or is a
published blog member whose non-link fields are unchanged. -/
theorem relink_frame (store : List Page) (hkeys : (store.map Page.key).Nodup) :
    (relinkStore store).length = store.length ∧
    (∀ w ∈ relinkWrites (chainQuery store), ∃ q ∈ chainQuery store,
      q.key = w.key ∧ eqExceptLinks q w ∧ q.published = true ∧ q.blog = true) ∧
    (∀ i < store.length,
      (relinkStore store).getD i default = store.getD i default ∨
      ((store.getD i default).published = true ∧ (store.getD i default).blog = true ∧
        eqExceptLinks (store.getD i default) ((relinkStore store).getD i default))) := by
  refine ⟨by simp [relinkStore, applyPuts], relinkWrites_spec store, ?_⟩
  intro i hi
  have hgetD : (relinkStore store).getD i default =
      (match (relinkWrites (chainQuery store)).find?
          (fun w => w.key == (store.getD i default).key) with
        | some w => w
        | none => store.getD i default) := by
    rw [relinkStore, applyPuts]
    exact getD_map_general _ store i hi default
  rcases hf : (relinkWrites (chainQuery store)).find?
      (fun w => w.key == (store.getD i default).key) with _ | w
  · left
    rw [hgetD, hf]
  · right
    have hw : w ∈ relinkWrites (chainQuery store) := List.mem_of_find?_eq_some hf
    have hwkey : w.key = (store.getD i default).key := by
      have := List.find?_some hf
      simpa using this
    obtain ⟨q, hqQ, hqkey, hqeq, hqpub, hqblog⟩ := relinkWrites_spec store w hw
    have hqstore : q ∈ store := ((chainQuery_mem store q).mp hqQ).1
    have hpstore : store.getD i default ∈ store := by
      rw [List.getD_eq_getElem _ _ hi]
      exact List.getElem_mem hi
    have hqp : q = store.getD i default := by
      apply List.inj_on_of_nodup_map hkeys hqstore hpstore
      rw [hqkey, hwkey]
    rw [hgetD, hf]
    rw [← hqp]
    exact ⟨hqpub, hqblog, hqeq⟩

/-- Witness for C7: a two-page store with distinct keys. -/
theorem relink_frame_witness :
    (relinkStore [(⟨1, "A", 1, 0, true, true, "", [], "", some 9, none⟩ : Page),
      ⟨2, "B", 2, 0, true, true, "", [], "", none, none⟩]).length = ([(⟨1, "A", 1, 0, true, true, "", [], "", some 9, none⟩ : Page),
      ⟨2, "B", 2, 0, true, true, "", [], "", none, none⟩] : List Page).length ∧
    (∀ w ∈ relinkWrites (chainQuery [(⟨1, "A", 1, 0, true, true, "", [], "", some 9, none⟩ : Page),
      ⟨2, "B", 2, 0, true, true, "", [], "", none, none⟩]), ∃ q ∈ chainQuery [(⟨1, "A", 1, 0, true, true, "", [], "", some 9, none⟩ : Page),
      ⟨2, "B", 2, 0, true, true, "", [], "", none, none⟩],
      q.key = w.key ∧ eqExceptLinks q w ∧ q.published = true ∧ q.blog = true) ∧
    (∀ i < ([(⟨1, "A", 1, 0, true, true, "", [], "", some 9, none⟩ : Page),
      ⟨2, "B", 2, 0, true, true, "", [], "", none, none⟩] : List Page).length,
      (relinkStore [(⟨1, "A", 1, 0, true, true, "", [], "", some 9, none⟩ : Page),
      ⟨2, "B", 2, 0, true, true, "", [], "", none, none⟩]).getD i default = ([(⟨1, "A", 1, 0, true, true, "", [], "", some 9, none⟩ : Page),
      ⟨2, "B", 2, 0, true, true, "", [], "", none, none⟩] : List Page).getD i default ∨
      ((([(⟨1, "A", 1, 0, true, true, "", [], "", some 9, none⟩ : Page),
      ⟨2, "B", 2, 0, true, true, "", [], "", none, none⟩] : List Page).getD i default).published = true ∧
        (([(⟨1, "A", 1, 0, true, true, "", [], "", some 9, none⟩ : Page),
      ⟨2, "B", 2, 0, true, true, "", [], "", none, none⟩] : List Page).getD i default).blog = true ∧
        eqExceptLinks (([(⟨1, "A", 1, 0, true, true, "", [], "", some 9, none⟩ : Page),
      ⟨2, "B", 2, 0, true, true, "", [], "", none, none⟩] : List Page).getD i default)
          ((relinkStore [(⟨1, "A", 1, 0, true, true, "", [], "", some 9, none⟩ : Page),
      ⟨2, "B", 2, 0, true, true, "", [], "", none, none⟩]).getD i default))) :=
  relink_frame [(⟨1, "A", 1, 0, true, true, "", [], "", some 9, none⟩ : Page),
      ⟨2, "B", 2, 0, true, true, "", [], "", none, none⟩] (by decide)

/-!
## The run-once memoized page renderer (`sitePage.Render`)

`sitePage.Render` (part_001 lines 83-106) executes the site's page template
at most once per `Page` object: the entity carries `fullHTML string` and
`render sync.Once` (both `datastore:"-"`); `sp.page.render.Do(...)` runs the
template into `fullHTML` on the first call only, and every call then serves
`fullHTML` (or a 500 `http.Error` when it is empty, e.g. after a template
failure).  The `sync.Once` cell is modelled as a `renderDone` flag on a
sequential trace of calls — `Do` serializes concurrent callers, so the
sequential trace is the observable behaviour; the template execution is
modelled by its output string `tmpl` (deterministic for a fixed page and
template).  The `notFoundPage` substitution for a nil page and the
`http.ServeContent` headers are outside the memoization being verified.
-/

/-- The memoization state carried on a `Page` object: `fullHTML` plus the
`sync.Once` flag (Go zero values: `""` and not-yet-run). -/
structure renderState where
  fullHTML : String
  renderDone : Bool
deriving DecidableEq, Repr

/-- A fresh `Page`'s memoization state. -/
def pageInit : renderState := { fullHTML := "", renderDone := false }

/-- What one `Render` call writes to the response. -/
inductive renderResult where
  | html (s : String)
  | internalError
deriving DecidableEq, Repr

/-- One `sitePage.Render` call: `render.Do` fills `fullHTML` with the
template output on the first call only; the call then serves `fullHTML`, or
a 500 error when it is empty.  Returns (response, new state, template
executions in this call). -/
def sitePageRender (tmpl : String) (st : renderState) : renderResult × renderState × Nat :=
  let st' := if st.renderDone then st else { fullHTML := tmpl, renderDone := true }
  let execs := if st.renderDone then 0 else 1
  if st'.fullHTML = "" then (renderResult.internalError, st', execs)
  else (renderResult.html st'.fullHTML, st', execs)

/-- A sequential trace of `n` `Render` calls against one `Page` object:
the list of responses, the final state, and the total template executions. -/
def renderTrace (tmpl : String) (st : renderState) : Nat → List renderResult × renderState × Nat
  | 0 => ([], st, 0)
  | n + 1 =>
    let r := sitePageRender tmpl st
    let t := renderTrace tmpl r.2.1 n
    (r.1 :: t.1, t.2.1, r.2.2 + t.2.2)

/-- After the first call the state is the filled memo cell. -/
theorem sitePageRender_init (tmpl : String) :
    sitePageRender tmpl pageInit =
      (if tmpl = "" then renderResult.internalError else renderResult.html tmpl,
        { fullHTML := tmpl, renderDone := true }, 1) := by
  rw [sitePageRender]
  by_cases h : tmpl = "" <;> simp [pageInit, h]

/-- A call on a filled memo cell changes nothing, runs the template zero
times, and serves the memoized string (500 if it is empty). -/
theorem sitePageRender_done (tmpl s : String) :
    sitePageRender tmpl { fullHTML := s, renderDone := true } =
      (if s = "" then renderResult.internalError else renderResult.html s,
        { fullHTML := s, renderDone := true }, 0) := by
  rw [sitePageRender]
  by_cases h : s = "" <;> simp [h]

/-- A trace on a filled memo cell repeats the memoized response with zero
template executions. -/
theorem renderTrace_done (tmpl s : String) (n : Nat) :
    renderTrace tmpl { fullHTML := s, renderDone := true } n =
      (List.replicate n (if s = "" then renderResult.internalError else renderResult.html s),
        { fullHTML := s, renderDone := true }, 0) := by
  induction n with
  | zero => rfl
  | succ n ih =>
    rw [renderTrace, sitePageRender_done]
    simp only
    rw [ih, List.replicate_succ]
    simp

/-- C9: rendering is run-once memoized per `Page` object: over any `n ≥ 1`
sequential `Render` calls on `sitePage` values wrapping one fresh `Page`,
the template is executed exactly once (so at most once), and every call —
the first included — serves the response built from the one memoized string
(`html tmpl` whenever the template produced a nonempty string, identically
on every call; the 500 error when it produced the empty string). -/
theorem render_once_memoized (tmpl : String) (n : Nat) (h : 1 ≤ n) :
    (renderTrace tmpl pageInit n).2.2 = 1 ∧
    (renderTrace tmpl pageInit n).2.1 = { fullHTML := tmpl, renderDone := true } ∧
    (∀ out ∈ (renderTrace tmpl pageInit n).1,
      out = if tmpl = "" then renderResult.internalError else renderResult.html tmpl) ∧
    (tmpl ≠ "" → ∀ out ∈ (renderTrace tmpl pageInit n).1,
      out = renderResult.html tmpl) := by
  rcases n with _ | n
  · omega
  · rw [renderTrace, sitePageRender_init]
    simp only
    rw [renderTrace_done]
    refine ⟨rfl, rfl, ?_, ?_⟩
    · intro out hout
      rcases List.mem_cons.mp hout with h1 | h1
      · exact h1
      · exact List.eq_of_mem_replicate h1
    · intro htm out hout
      rcases List.mem_cons.mp hout with h1 | h1
      · rw [h1, if_neg htm]
      · rw [List.eq_of_mem_replicate h1, if_neg htm]

/-- Witness for C9: three `Render` calls on one fresh page run the template
once and serve the memoized string every time. -/
theorem render_once_memoized_witness :
    (renderTrace "x" pageInit 3).2.2 = 1 ∧
    (renderTrace "x" pageInit 3).2.1 = { fullHTML := "x", renderDone := true } ∧
    (∀ out ∈ (renderTrace "x" pageInit 3).1,
      out = if "x" = "" then renderResult.internalError else renderResult.html "x") ∧
    ("x" ≠ "" → ∀ out ∈ (renderTrace "x" pageInit 3).1,
      out = renderResult.html "x") :=
  render_once_memoized "x" 3 (by decide)
